import Mathlib

/-
Verification of the hybrid voice assistant (STT + LLM + TTS orchestrator).

The Python sources are shallowly embedded: strings become `List Char`,
the regex-based helpers (`_split_on_punctuation`, `extract_emotion`,
`normalize_for_tts`) become recursive functions mirroring the exact
behaviour of the patterns used in the source, the streaming chunker
`get_response_with_chunking` becomes a fold over the fragment list, and
the orchestrator loops of `main.py` become explicit state-passing
functions.  Fallible API calls are `Option`-valued.
-/

set_option maxRecDepth 100000

namespace Assistant

/-- Python whitespace for this code base: the characters matched by the
regex class backslash-s and stripped by `str.strip()` in the source
(space, tab, newline, carriage return, vertical tab, form feed). -/
def pyIsSpace (c : Char) : Bool :=
  c == ' ' || c == '\t' || c == '\n' || c == '\r' || c == '\x0b' || c == '\x0c'

/-- Negation of `pyIsSpace`, used to talk about the non-whitespace content
of a string. -/
def nonWS (c : Char) : Bool := !pyIsSpace c

/-- The punctuation class of `_split_on_punctuation` in `llm_gemini.py`
and `llm_groq.py`: period, exclamation, question mark, semicolon, comma. -/
def isPunct (c : Char) : Bool :=
  c == '.' || c == '!' || c == '?' || c == ';' || c == ','

/-- True when the list starts with a Python-whitespace character. -/
def headIsSpace : List Char → Bool
  | [] => false
  | c :: _ => pyIsSpace c

/-- Drop a trailing run of whitespace, mirroring the right half of
Python `str.strip()`. -/
def dropTrailWS : List Char → List Char
  | [] => []
  | c :: rest =>
    let r := dropTrailWS rest
    if r.isEmpty && pyIsSpace c then [] else c :: r

/-- Python `str.strip()`: remove leading and trailing whitespace. -/
def pyStrip (l : List Char) : List Char :=
  dropTrailWS (l.dropWhile pyIsSpace)

/-- The sentinel emotion returned by `extract_emotion` when no leading
bracket tag is found. -/
def neutralTag : List Char := ['N', 'E', 'U', 'T', 'R', 'A', 'L']

/-- Scan for the closing bracket of a leading tag, as the lazy group in
the pattern of `extract_emotion` does: the tag is everything before the
first closing bracket, and the regex dot cannot cross a newline, so the
scan fails if a newline or the end of the string is reached first.
Returns the tag and the remainder after the closing bracket. -/
def scanTag : List Char → Option (List Char × List Char)
  | [] => none
  | c :: rest =>
    if c == ']' then some ([], rest)
    else if c == '\n' then none
    else match scanTag rest with
      | none => none
      | some (t, rem) => some (c :: t, rem)

/-- The method `GeminiLLM.extract_emotion` (identical in `llm_groq.py`): match a
leading bracket tag, then greedily skip whitespace, then capture the rest
of the line (the trailing dot-star group stops at a newline).  On success
return the uppercased tag and the captured remainder; otherwise return
the sentinel NEUTRAL together with the original text.  The source
uppercases the tag with the Python string upper method, which follows
the full Unicode case tables (it also uppercases non-ASCII letters and
may expand a character to several); that table-driven function is
represented by the abstract parameter `up`: every theorem below holds
for an arbitrary `up`, and witnesses instantiate it with the ASCII
uppercase map on inputs where the two agree. -/
def extract_emotion (up : List Char → List Char) (text : List Char) :
    List Char × List Char :=
  match text with
  | [] => (neutralTag, [])
  | c :: rest =>
    if c = '[' then
      match scanTag rest with
      | some (tag, rem) =>
        (up tag, (rem.dropWhile pyIsSpace).takeWhile (fun x => x != '\n'))
      | none => (neutralTag, c :: rest)
    else (neutralTag, c :: rest)

theorem scanTag_append (tag rem : List Char) (h1 : ']' ∉ tag) (h2 : '\n' ∉ tag) :
    scanTag (tag ++ ']' :: rem) = some (tag, rem) := by
  induction tag with
  | nil => simp [scanTag]
  | cons c t ih =>
    have hc1 : c ≠ ']' := by intro h; exact h1 (h ▸ List.mem_cons_self c t)
    have hc2 : c ≠ '\n' := by intro h; exact h2 (h ▸ List.mem_cons_self c t)
    have ih2 := ih (fun h => h1 (List.mem_cons_of_mem c h))
      (fun h => h2 (List.mem_cons_of_mem c h))
    simp [scanTag, hc1, hc2, ih2]

theorem dropWhile_ws_append (w rest : List Char) (hw : ∀ c ∈ w, pyIsSpace c = true)
    (hr : ∀ c ∈ rest.take 1, pyIsSpace c = false) :
    (w ++ rest).dropWhile pyIsSpace = rest := by
  induction w with
  | nil =>
    cases rest with
    | nil => rfl
    | cons c r =>
      have := hr c (by simp)
      simp [List.dropWhile, this]
  | cons c t ih =>
    have hc := hw c (List.mem_cons_self c t)
    simp only [List.cons_append, List.dropWhile, hc]
    exact ih (fun x hx => hw x (List.mem_cons_of_mem c hx))

theorem takeWhile_no_newline (rest : List Char) (h : '\n' ∉ rest) :
    rest.takeWhile (fun c => c != '\n') = rest := by
  induction rest with
  | nil => rfl
  | cons c t ih =>
    have hc : c ≠ '\n' := by intro hh; exact h (hh ▸ List.mem_cons_self c t)
    have hb : (c != '\n') = true := by simp [hc]
    simp only [List.takeWhile, hb]
    simp [ih (fun hh => h (List.mem_cons_of_mem c hh))]

/-- The scan performed by `_split_on_punctuation`: the pattern splits the
text at every punctuation mark followed by one or more whitespace
characters (the whole greedy whitespace run is consumed), and the
reconstruction loop in the source glues each captured punctuation mark
back onto the chunk before it.  `skip` is true while the whitespace run
of a match is being consumed; `acc` holds the current chunk reversed. -/
def splitAux : Bool → List Char → List Char → List (List Char)
  | _, acc, [] => [acc.reverse]
  | skip, acc, c :: rest =>
    if skip && pyIsSpace c then splitAux true acc rest
    else if isPunct c && headIsSpace rest then
      (acc.reverse ++ [c]) :: splitAux true [] rest
    else splitAux false (c :: acc) rest

/-- The method `GeminiLLM._split_on_punctuation` (identical in `llm_groq.py`):
split on punctuation followed by whitespace and reattach the punctuation
to the preceding chunk. -/
def split_on_punctuation (text : List Char) : List (List Char) :=
  splitAux false [] text

/-- What the split keeps of the text: the same scan as `splitAux`, but
producing the flat character sequence (each split point loses exactly the
whitespace run that the pattern consumed). -/
def dropSplitWS : Bool → List Char → List Char
  | _, [] => []
  | skip, c :: rest =>
    if skip && pyIsSpace c then dropSplitWS true rest
    else if isPunct c && headIsSpace rest then c :: dropSplitWS true rest
    else c :: dropSplitWS false rest

/-- Split a non-empty list (given as head and tail) into its leading
chunks and its final chunk, mirroring `chunks[:-1]` and `chunks[-1]`. -/
def initLast (x : List Char) : List (List Char) → List (List Char) × List Char
  | [] => ([], x)
  | y :: ys =>
    let p := initLast y ys
    (x :: p.1, p.2)

/-- One iteration of the loop body of `get_response_with_chunking`:
append the fragment to the buffer, split; with at least two chunks, emit
every leading chunk stripped (dropping those that strip to nothing) and
keep the last chunk as the new buffer, else keep buffering. -/
def stepChunk (buffer frag : List Char) : List (List Char) × List Char :=
  let b := buffer ++ frag
  match split_on_punctuation b with
  | [] => ([], b)
  | [_] => ([], b)
  | x :: y :: ys =>
    let p := initLast x (y :: ys)
    ((p.1.map pyStrip).filter (fun e => !e.isEmpty), p.2)

/-- The method `get_response_with_chunking` (identical in `llm_gemini.py` and
`llm_groq.py`), run over the whole fragment stream: threads the buffer
and the accumulated full response through every fragment, and flushes
the stripped final buffer when the stream ends.  `cb` records whether a
chunk callback was supplied; emissions are the chunk texts passed to it.
Returns (emissions, full response). -/
def chunkRun (cb : Bool) : List Char → List Char → List (List Char) →
    List (List Char) × List Char
  | buffer, resp, [] =>
    ((if cb && !(pyStrip buffer).isEmpty then [pyStrip buffer] else []), resp)
  | buffer, resp, f :: fs =>
    let s := stepChunk buffer f
    let r := chunkRun cb s.2 (resp ++ f) fs
    ((if cb then s.1 else []) ++ r.1, r.2)

/-- Entry point of the chunking loop: empty buffer, empty response. -/
def get_response_with_chunking (cb : Bool) (frags : List (List Char)) :
    List (List Char) × List Char :=
  chunkRun cb [] [] frags

/-- The chunks delivered to the per-chunk callback (including the final
flush) when a callback is supplied. -/
def chunkerEmissions (frags : List (List Char)) : List (List Char) :=
  (get_response_with_chunking true frags).1

/-- One list is obtained from another by deleting whitespace characters
only: it is a subsequence, and the two agree on their non-whitespace
characters. -/
def WSDeletion (a b : List Char) : Prop :=
  List.Sublist a b ∧ a.filter nonWS = b.filter nonWS

theorem WSDeletion.refl (a : List Char) : WSDeletion a a :=
  ⟨List.Sublist.refl a, rfl⟩

theorem WSDeletion.trans {a b c : List Char} (h1 : WSDeletion a b)
    (h2 : WSDeletion b c) : WSDeletion a c :=
  ⟨h1.1.trans h2.1, h1.2.trans h2.2⟩

theorem WSDeletion.append {a b c d : List Char} (h1 : WSDeletion a b)
    (h2 : WSDeletion c d) : WSDeletion (a ++ c) (b ++ d) := by
  refine ⟨h1.1.append h2.1, ?_⟩
  simp [List.filter_append, h1.2, h2.2]

theorem dropTrailWS_sublist (l : List Char) : List.Sublist (dropTrailWS l) l := by
  induction l with
  | nil => simp [dropTrailWS]
  | cons c rest ih =>
    simp only [dropTrailWS]
    by_cases h : (dropTrailWS rest).isEmpty && pyIsSpace c
    · simp only [h, if_pos]
      exact List.nil_sublist _
    · simp only [h]
      simp only [Bool.not_eq_true] at h
      exact List.Sublist.cons₂ c ih

theorem dropTrailWS_filter (l : List Char) :
    (dropTrailWS l).filter nonWS = l.filter nonWS := by
  induction l with
  | nil => rfl
  | cons c rest ih =>
    simp only [dropTrailWS]
    by_cases h : (dropTrailWS rest).isEmpty && pyIsSpace c
    · have h1 : (dropTrailWS rest).isEmpty = true := by
        cases hh : (dropTrailWS rest).isEmpty <;> simp [hh] at h ⊢
      have h2 : pyIsSpace c = true := by
        cases hh : pyIsSpace c <;> simp [hh] at h ⊢
      have h3 : dropTrailWS rest = [] := by
        cases hx : dropTrailWS rest <;> simp [hx] at h1 ⊢
      have h4 : rest.filter nonWS = [] := by rw [← ih, h3]; rfl
      have h5 : nonWS c = false := by simp [nonWS, h2]
      simp [h, List.filter, h5, h4]
    · simp only [h, if_neg]
      cases hc : nonWS c <;> simp [List.filter, hc, ih]

theorem dropWhile_ws_filter (l : List Char) :
    (l.dropWhile pyIsSpace).filter nonWS = l.filter nonWS := by
  induction l with
  | nil => rfl
  | cons c rest ih =>
    by_cases h : pyIsSpace c
    · have h5 : nonWS c = false := by simp [nonWS, h]
      simp [List.dropWhile, h, List.filter, h5, ih]
    · have hb : pyIsSpace c = false := by
        cases hh : pyIsSpace c <;> simp_all
      simp [List.dropWhile, hb]

theorem pyStrip_wsDeletion (l : List Char) : WSDeletion (pyStrip l) l := by
  refine ⟨?_, ?_⟩
  · exact (dropTrailWS_sublist _).trans (List.dropWhile_sublist _)
  · rw [pyStrip, dropTrailWS_filter, dropWhile_ws_filter]

theorem pyStrip_empty_wsDeletion {l : List Char} (h : pyStrip l = []) :
    WSDeletion [] l := by
  refine ⟨List.nil_sublist l, ?_⟩
  have := (pyStrip_wsDeletion l).2
  rw [h] at this
  simpa using this

theorem splitAux_flatten (cs : List Char) : ∀ (skip : Bool) (acc : List Char),
    (splitAux skip acc cs).flatten = acc.reverse ++ dropSplitWS skip cs := by
  induction cs with
  | nil => intro skip acc; simp [splitAux, dropSplitWS]
  | cons c rest ih =>
    intro skip acc
    by_cases h1 : skip && pyIsSpace c
    · simp [splitAux, dropSplitWS, h1, ih]
    · by_cases h2 : isPunct c && headIsSpace rest
      · simp [splitAux, dropSplitWS, h1, h2, ih]
      · simp [splitAux, dropSplitWS, h1, h2, ih]

theorem dropSplitWS_sublist (cs : List Char) : ∀ skip : Bool,
    List.Sublist (dropSplitWS skip cs) cs := by
  induction cs with
  | nil => intro skip; simp [dropSplitWS]
  | cons c rest ih =>
    intro skip
    by_cases h1 : skip && pyIsSpace c
    · simp only [dropSplitWS, h1, if_pos]
      exact (ih true).cons c
    · by_cases h2 : isPunct c && headIsSpace rest
      · simp only [dropSplitWS, h1, h2]
        simp only [Bool.not_eq_true] at h1
        exact (ih true).cons₂ c
      · simp only [dropSplitWS, h1, h2]
        simp only [Bool.not_eq_true] at h1 h2
        exact (ih false).cons₂ c

theorem dropSplitWS_filter (cs : List Char) : ∀ skip : Bool,
    (dropSplitWS skip cs).filter nonWS = cs.filter nonWS := by
  induction cs with
  | nil => intro skip; rfl
  | cons c rest ih =>
    intro skip
    by_cases h1 : skip && pyIsSpace c
    · have hs : pyIsSpace c = true := by
        cases hh : pyIsSpace c <;> simp [hh] at h1 ⊢
      have hn : nonWS c = false := by simp [nonWS, hs]
      simp [dropSplitWS, h1, List.filter, hn, ih]
    · by_cases h2 : isPunct c && headIsSpace rest
      · cases hn : nonWS c <;> simp [dropSplitWS, h1, h2, List.filter, hn, ih]
      · cases hn : nonWS c <;> simp [dropSplitWS, h1, h2, List.filter, hn, ih]

theorem split_on_punctuation_flatten (text : List Char) :
    (split_on_punctuation text).flatten = dropSplitWS false text := by
  simpa using splitAux_flatten text false []

theorem initLast_eq (x : List Char) (ys : List (List Char)) :
    (initLast x ys).1 ++ [(initLast x ys).2] = x :: ys := by
  induction ys generalizing x with
  | nil => rfl
  | cons y ys ih => simp [initLast, ih y]

theorem initLast_mem_init (x : List Char) (ys : List (List Char)) :
    ∀ e ∈ (initLast x ys).1, e ∈ x :: ys := by
  intro e he
  have h := initLast_eq x ys
  rw [← h]
  exact List.mem_append_left _ he

theorem initLast_mem_last (x : List Char) (ys : List (List Char)) :
    (initLast x ys).2 ∈ x :: ys := by
  have h := initLast_eq x ys
  rw [← h]
  simp

theorem emitted_wsDeletion (l : List (List Char)) :
    WSDeletion ((l.map pyStrip).filter (fun e => !e.isEmpty)).flatten l.flatten := by
  induction l with
  | nil => exact WSDeletion.refl []
  | cons c rest ih =>
    by_cases h : (pyStrip c).isEmpty
    · have hpe : pyStrip c = [] := by
        cases hx : pyStrip c <;> simp [hx] at h ⊢
      have h0 : WSDeletion [] c := pyStrip_empty_wsDeletion hpe
      simpa [List.filter, h] using h0.append ih
    · have hb : (!(pyStrip c).isEmpty) = true := by simp [h]
      simpa [List.filter, hb] using (pyStrip_wsDeletion c).append ih

/-- Everything `stepChunk` produces comes from the buffer plus the new
fragment: the emitted chunks concatenated with the new buffer are a
whitespace-deletion of it, each emitted chunk is a subsequence of it,
and the new buffer is a subsequence of it. -/
theorem stepChunk_spec (buffer frag : List Char) :
    WSDeletion ((stepChunk buffer frag).1.flatten ++ (stepChunk buffer frag).2)
      (buffer ++ frag)
    ∧ (∀ e ∈ (stepChunk buffer frag).1, List.Sublist e (buffer ++ frag))
    ∧ List.Sublist (stepChunk buffer frag).2 (buffer ++ frag) := by
  have hflat := split_on_punctuation_flatten (buffer ++ frag)
  have hdel : WSDeletion (split_on_punctuation (buffer ++ frag)).flatten
      (buffer ++ frag) := by
    rw [hflat]
    exact ⟨dropSplitWS_sublist _ false, dropSplitWS_filter _ false⟩
  unfold stepChunk
  cases hsp : split_on_punctuation (buffer ++ frag) with
  | nil =>
    simp only [hsp]
    exact ⟨WSDeletion.refl _, by simp, List.Sublist.refl _⟩
  | cons x ys =>
    cases ys with
    | nil =>
      simp only [hsp]
      exact ⟨WSDeletion.refl _, by simp, List.Sublist.refl _⟩
    | cons y ys =>
      simp only [hsp]
      rw [hsp] at hdel
      have hchunk : ∀ e ∈ x :: y :: ys, List.Sublist e (buffer ++ frag) := by
        intro e he
        exact (List.sublist_flatten_of_mem he).trans hdel.1
      have hinit := initLast_eq x (y :: ys)
      constructor
      · have h1 : WSDeletion ((((initLast x (y :: ys)).1.map pyStrip).filter
            (fun e => !e.isEmpty)).flatten ++ (initLast x (y :: ys)).2)
            ((initLast x (y :: ys)).1.flatten ++ (initLast x (y :: ys)).2) :=
          (emitted_wsDeletion _).append (WSDeletion.refl _)
        have h2 : (initLast x (y :: ys)).1.flatten ++ (initLast x (y :: ys)).2
            = (x :: y :: ys).flatten := by
          rw [← hinit]
          simp
        rw [h2] at h1
        exact h1.trans hdel
      constructor
      · intro e he
        simp only [List.mem_filter, List.mem_map] at he
        obtain ⟨⟨c, hc, rfl⟩, _⟩ := he
        exact (pyStrip_wsDeletion c).1.trans
          (hchunk c (initLast_mem_init x (y :: ys) c hc))
      · exact hchunk _ (initLast_mem_last x (y :: ys))

/-- Main invariant of the chunking loop with a callback present: the
concatenation of everything emitted (including the final flush) is a
whitespace-deletion of the buffer followed by the remaining fragments,
and every emitted chunk is a subsequence of it. -/
theorem chunkRun_spec (fs : List (List Char)) : ∀ (buffer resp : List Char),
    WSDeletion (chunkRun true buffer resp fs).1.flatten (buffer ++ fs.flatten)
    ∧ ∀ e ∈ (chunkRun true buffer resp fs).1,
        List.Sublist e (buffer ++ fs.flatten) := by
  induction fs with
  | nil =>
    intro buffer resp
    by_cases h : (pyStrip buffer).isEmpty
    · have hpe : pyStrip buffer = [] := by
        cases hx : pyStrip buffer <;> simp [hx] at h ⊢
      constructor
      · simpa [chunkRun, h] using pyStrip_empty_wsDeletion hpe
      · simp [chunkRun, h]
    · constructor
      · simpa [chunkRun, h] using pyStrip_wsDeletion buffer
      · intro e he
        simp only [chunkRun, h] at he
        simp only [Bool.not_false, Bool.and_self, if_pos, List.mem_singleton] at he
        subst he
        simpa using (pyStrip_wsDeletion buffer).1
  | cons f fs ih =>
    intro buffer resp
    have hstep := stepChunk_spec buffer f
    have hih := ih (stepChunk buffer f).2 (resp ++ f)
    constructor
    · have h1 : WSDeletion ((stepChunk buffer f).1.flatten
          ++ (chunkRun true (stepChunk buffer f).2 (resp ++ f) fs).1.flatten)
          ((stepChunk buffer f).1.flatten ++ ((stepChunk buffer f).2 ++ fs.flatten)) :=
        (WSDeletion.refl _).append hih.1
      have h2 : WSDeletion ((stepChunk buffer f).1.flatten
          ++ ((stepChunk buffer f).2 ++ fs.flatten))
          ((buffer ++ f) ++ fs.flatten) := by
        have := hstep.1.append (WSDeletion.refl fs.flatten)
        simpa [List.append_assoc] using this
      have h3 := h1.trans h2
      simpa [chunkRun, List.append_assoc] using h3
    · intro e he
      simp only [chunkRun, if_pos, List.mem_append] at he
      rcases he with he | he
      · have := hstep.2.1 e he
        have h2 : List.Sublist (buffer ++ f) (buffer ++ f ++ fs.flatten) :=
          List.sublist_append_left _ _
        simpa [List.append_assoc] using this.trans h2
      · have := hih.2 e he
        have h2 : List.Sublist ((stepChunk buffer f).2 ++ fs.flatten)
            ((buffer ++ f) ++ fs.flatten) :=
          hstep.2.2.append_right _
        simpa [List.append_assoc] using this.trans h2

theorem chunkRun_response (fs : List (List Char)) :
    ∀ (cb : Bool) (buffer resp : List Char),
    (chunkRun cb buffer resp fs).2 = resp ++ fs.flatten := by
  induction fs with
  | nil => intro cb buffer resp; simp [chunkRun]
  | cons f fs ih =>
    intro cb buffer resp
    simp [chunkRun, ih, List.append_assoc]

/-- C2 (amended): for every fragment sequence, the ordered concatenation
of all chunks emitted by the chunker plus the final flush is obtained
from the concatenation of the input fragments by deleting whitespace
characters only — it is a subsequence of the input and agrees with it on
every non-whitespace character, so no non-whitespace character is
dropped or duplicated, regardless of where fragment boundaries fall.
(The deleted whitespace is the whole greedy run consumed at each split
point plus the leading/trailing whitespace stripped from each chunk, not
exactly one character per split point.) -/
theorem chunker_concat_ws_deletion (frags : List (List Char)) :
    List.Sublist (chunkerEmissions frags).flatten frags.flatten
    ∧ (chunkerEmissions frags).flatten.filter nonWS
      = frags.flatten.filter nonWS := by
  have h := (chunkRun_spec frags [] []).1
  exact ⟨by simpa using h.1, by simpa using h.2⟩

/-- C2 counterexample: on the single fragment consisting of a space
followed by the letter a there is no punctuation split point at all (the
split returns the text unchanged), yet the concatenation of the emitted
chunks is just the letter a — the leading space was dropped by the strip
call, so the output differs from the input even though no split-point
whitespace was consumed. -/
theorem chunker_counterexample :
    chunkerEmissions [[' ', 'a']] = [['a']]
    ∧ split_on_punctuation [' ', 'a'] = [[' ', 'a']]
    ∧ ([' ', 'a'] : List Char) ≠ ['a'] := by
  refine ⟨by decide, by decide, by decide⟩

/-- C10: the value returned by get_response_with_chunking is exactly the
concatenation, in emission order, of all fragments yielded by the
message stream, whether or not a chunk callback is configured — the
returned full response does not depend on the callback at all. -/
theorem chunking_response_is_fragment_concat :
    ∀ (cb : Bool) (frags : List (List Char)),
    (get_response_with_chunking cb frags).2 = frags.flatten := by
  intro cb frags
  simpa using chunkRun_response frags cb [] []

/-- The character class kept by step 3 of `GeminiLLM.normalize_for_tts`:
ASCII letters, the two n-tilde letters, digits, whitespace, period and
comma.  Everything else — brackets, exclamation and question marks
included — is removed. -/
def gemAllowed (c : Char) : Bool :=
  (decide ('a' ≤ c) && decide (c ≤ 'z')) || (decide ('A' ≤ c) && decide (c ≤ 'Z'))
  || c == 'ñ' || c == 'Ñ' || (decide ('0' ≤ c) && decide (c ≤ '9'))
  || pyIsSpace c || c == '.' || c == ','

/-- The character class kept by `GroqLLM.normalize_for_tts`: the Gemini
class plus exclamation and question marks. -/
def groqAllowed (c : Char) : Bool :=
  gemAllowed c || c == '!' || c == '?'

/-- Step 4 of `normalize_for_tts`: replace every maximal whitespace run
by a single space (the substitution of one-or-more whitespace by one
space).  `inRun` is true while inside a run whose first character has
already been replaced. -/
def collapseAux : Bool → List Char → List Char
  | _, [] => []
  | inRun, c :: rest =>
    if pyIsSpace c then
      if inRun then collapseAux true rest else ' ' :: collapseAux true rest
    else c :: collapseAux false rest

/-- The method `GeminiLLM.normalize_for_tts`, steps 3 and 4: filter to the allowed
character class, collapse whitespace runs to single spaces, and strip.
Steps 1 and 2 of the source (Unicode NFD normalization and removal of
combining marks) depend on the Unicode category tables and are
represented by the abstract preprocessing function `pre`; every theorem
below holds for an arbitrary `pre`, and witnesses instantiate it with
the identity. -/
def normalize_for_tts (pre : List Char → List Char) (text : List Char) : List Char :=
  pyStrip (collapseAux false ((pre text).filter gemAllowed))

/-- The method `GroqLLM.normalize_for_tts`, with the Groq character class. -/
def groq_normalize_for_tts (pre : List Char → List Char) (text : List Char) : List Char :=
  pyStrip (collapseAux false ((pre text).filter groqAllowed))

/-- No two adjacent whitespace characters occur in the list. -/
def noAdjWS (l : List Char) : Prop :=
  List.Chain' (fun a b => ¬(pyIsSpace a = true ∧ pyIsSpace b = true)) l

theorem collapseAux_mem (l : List Char) : ∀ (inRun : Bool) (c : Char),
    c ∈ collapseAux inRun l → c = ' ' ∨ (c ∈ l ∧ pyIsSpace c = false) := by
  induction l with
  | nil => intro inRun c h; simp [collapseAux] at h
  | cons x rest ih =>
    intro inRun c h
    by_cases hx : pyIsSpace x
    · cases inRun with
      | true =>
        simp only [collapseAux, hx, if_pos, if_true] at h
        rcases ih true c h with h1 | h2
        · exact Or.inl h1
        · exact Or.inr ⟨List.mem_cons_of_mem x h2.1, h2.2⟩
      | false =>
        simp only [collapseAux, hx, if_pos] at h
        rcases List.mem_cons.mp h with h1 | h1
        · exact Or.inl h1
        · rcases ih true c h1 with h2 | h3
          · exact Or.inl h2
          · exact Or.inr ⟨List.mem_cons_of_mem x h3.1, h3.2⟩
    · have hx2 : pyIsSpace x = false := by
        cases hh : pyIsSpace x <;> simp_all
      simp only [collapseAux, hx2, Bool.false_eq_true, if_neg, if_false] at h
      rcases List.mem_cons.mp h with h1 | h1
      · exact Or.inr ⟨h1 ▸ List.mem_cons_self x rest, h1 ▸ hx2⟩
      · rcases ih false c h1 with h2 | h3
        · exact Or.inl h2
        · exact Or.inr ⟨List.mem_cons_of_mem x h3.1, h3.2⟩

theorem collapseAux_inRun_head (l : List Char) :
    ∀ c, (collapseAux true l).head? = some c → pyIsSpace c = false := by
  induction l with
  | nil => intro c h; simp [collapseAux] at h
  | cons x rest ih =>
    intro c h
    by_cases hx : pyIsSpace x
    · simp only [collapseAux, hx, if_pos, if_true] at h
      exact ih c h
    · have hx2 : pyIsSpace x = false := by
        cases hh : pyIsSpace x <;> simp_all
      simp only [collapseAux, hx2, Bool.false_eq_true, if_neg, if_false,
        List.head?_cons, Option.some.injEq] at h
      exact h ▸ hx2

theorem collapseAux_noAdjWS (l : List Char) : ∀ inRun : Bool,
    noAdjWS (collapseAux inRun l) := by
  induction l with
  | nil => intro i; simp [collapseAux, noAdjWS]
  | cons x rest ih =>
    intro inRun
    by_cases hx : pyIsSpace x
    · cases inRun with
      | true => simpa [collapseAux, hx] using ih true
      | false =>
        simp only [collapseAux, hx, if_pos]
        show noAdjWS (' ' :: collapseAux true rest)
        rw [noAdjWS, List.chain'_cons']
        refine ⟨?_, ih true⟩
        intro y hy
        have := collapseAux_inRun_head rest y hy
        simp [this]
    · have hx2 : pyIsSpace x = false := by
        cases hh : pyIsSpace x <;> simp_all
      simp only [collapseAux, hx2, Bool.false_eq_true, if_neg, if_false]
      rw [noAdjWS, List.chain'_cons']
      refine ⟨?_, ih false⟩
      intro y _
      simp [hx2]

theorem noAdjWS_tail {c : Char} {l : List Char} (h : noAdjWS (c :: l)) :
    noAdjWS l :=
  (List.chain'_cons'.mp h).2

theorem noAdjWS_dropWhile (p : Char → Bool) (l : List Char) (h : noAdjWS l) :
    noAdjWS (l.dropWhile p) := by
  induction l with
  | nil => simpa using h
  | cons c rest ih =>
    by_cases hc : p c
    · simp only [List.dropWhile, hc]
      exact ih (noAdjWS_tail h)
    · have hc2 : p c = false := by cases hh : p c <;> simp_all
      simpa [List.dropWhile, hc2] using h

theorem dropTrailWS_head (l : List Char) :
    dropTrailWS l = [] ∨ (dropTrailWS l).head? = l.head? := by
  cases l with
  | nil => exact Or.inl rfl
  | cons c rest =>
    simp only [dropTrailWS]
    by_cases h : (dropTrailWS rest).isEmpty && pyIsSpace c
    · simp [h]
    · simp [h]

theorem noAdjWS_dropTrailWS (l : List Char) (h : noAdjWS l) :
    noAdjWS (dropTrailWS l) := by
  induction l with
  | nil => simpa [dropTrailWS] using h
  | cons c rest ih =>
    simp only [dropTrailWS]
    by_cases hb : (dropTrailWS rest).isEmpty && pyIsSpace c
    · simp only [hb, if_pos]
      simp [noAdjWS]
    · simp only [hb, if_neg]
      show noAdjWS (c :: dropTrailWS rest)
      rw [noAdjWS, List.chain'_cons']
      refine ⟨?_, ih (noAdjWS_tail h)⟩
      intro y hy
      rcases dropTrailWS_head rest with h1 | h1
      · simp [h1] at hy
      · rw [h1] at hy
        have := (List.chain'_cons'.mp h).1 y hy
        exact this

theorem head_dropWhile_ws (l : List Char) :
    ∀ c, (l.dropWhile pyIsSpace).head? = some c → pyIsSpace c = false := by
  induction l with
  | nil => intro c h; simp at h
  | cons x rest ih =>
    intro c h
    by_cases hx : pyIsSpace x
    · simp only [List.dropWhile, hx] at h
      exact ih c h
    · have hx2 : pyIsSpace x = false := by cases hh : pyIsSpace x <;> simp_all
      simp only [List.dropWhile, hx2] at h
      simp only [List.head?_cons, Option.some.injEq] at h
      exact h ▸ hx2

theorem pyStrip_head (l : List Char) :
    ∀ c, (pyStrip l).head? = some c → pyIsSpace c = false := by
  intro c h
  rw [pyStrip] at h
  rcases dropTrailWS_head (l.dropWhile pyIsSpace) with h1 | h1
  · simp [h1] at h
  · exact head_dropWhile_ws l c (h1 ▸ h)

theorem dropTrailWS_last (l : List Char) :
    ∀ c, (dropTrailWS l).getLast? = some c → pyIsSpace c = false := by
  induction l with
  | nil => intro c h; simp [dropTrailWS] at h
  | cons x rest ih =>
    intro c h
    simp only [dropTrailWS] at h
    by_cases hb : (dropTrailWS rest).isEmpty && pyIsSpace x
    · simp [hb] at h
    · simp only [hb, if_neg] at h
      cases hr : dropTrailWS rest with
      | nil =>
        rw [hr] at h
        have h3 : some x = some c := h
        have hx : pyIsSpace x = false := by
          rw [hr] at hb
          cases hh : pyIsSpace x <;> simp_all
        exact (Option.some.inj h3) ▸ hx
      | cons z zs =>
        rw [hr] at h
        have h4 : (z :: zs).getLast? = some c := h
        exact ih c (by rw [hr]; exact h4)

theorem pyStrip_last (l : List Char) :
    ∀ c, (pyStrip l).getLast? = some c → pyIsSpace c = false := by
  intro c h
  exact dropTrailWS_last (l.dropWhile pyIsSpace) c h

theorem noAdjWS_pyStrip (l : List Char) (h : noAdjWS l) :
    noAdjWS (pyStrip l) :=
  noAdjWS_dropTrailWS _ (noAdjWS_dropWhile _ _ h)

theorem normalize_mem (pre : List Char → List Char) (text : List Char) :
    ∀ c ∈ normalize_for_tts pre text,
    c = ' ' ∨ (gemAllowed c = true ∧ pyIsSpace c = false) := by
  intro c hc
  have h1 : c ∈ collapseAux false ((pre text).filter gemAllowed) :=
    (pyStrip_wsDeletion _).1.subset hc
  rcases collapseAux_mem _ false c h1 with h2 | h2
  · exact Or.inl h2
  · exact Or.inr ⟨(List.mem_filter.mp h2.1).2, h2.2⟩

theorem extract_emotion_no_bracket (up : List Char → List Char)
    (t : List Char) (h : t.head? ≠ some '[') :
    extract_emotion up t = (neutralTag, t) := by
  cases t with
  | nil => rfl
  | cons c rest =>
    have hc : c ≠ '[' := by
      intro hh
      exact h (by simp [hh])
    simp [extract_emotion, hc]

theorem chunk_sublist_of_mem {frags : List (List Char)} {e : List Char}
    (he : e ∈ chunkerEmissions frags) : List.Sublist e frags.flatten := by
  have := (chunkRun_spec frags [] []).2 e he
  simpa using this

/-- C9: the Gemini normalize_for_tts returns, for every preprocessing of
the Unicode steps and every input, a string over ASCII letters, n-tilde,
digits, periods, commas and single internal spaces only — in particular
the bracket, exclamation and question characters are removed (no two
adjacent whitespace characters, no leading and no trailing whitespace
survive).  Consequently extract_emotion applied to any chunk the chunker
produces from a Gemini-normalized stream returns the NEUTRAL sentinel
with the chunk unchanged: the emotion tag is destroyed by normalization
before extraction in the Gemini pipeline. -/
theorem gemini_normalization_destroys_tags
    (pre : List Char → List Char) (text : List Char) :
    (∀ c ∈ normalize_for_tts pre text,
      (c = ' ' ∨ (gemAllowed c = true ∧ pyIsSpace c = false))
      ∧ c ≠ '[' ∧ c ≠ ']' ∧ c ≠ '!' ∧ c ≠ '?')
    ∧ noAdjWS (normalize_for_tts pre text)
    ∧ (∀ c, (normalize_for_tts pre text).head? = some c → pyIsSpace c = false)
    ∧ (∀ c, (normalize_for_tts pre text).getLast? = some c → pyIsSpace c = false)
    ∧ ∀ (up : List Char → List Char),
      ∀ chunk ∈ chunkerEmissions [normalize_for_tts pre text],
        extract_emotion up chunk = (neutralTag, chunk) := by
  have hmem := normalize_mem pre text
  have hforb : ∀ c ∈ normalize_for_tts pre text,
      c ≠ '[' ∧ c ≠ ']' ∧ c ≠ '!' ∧ c ≠ '?' := by
    intro c hc
    rcases hmem c hc with h | h
    · subst h
      refine ⟨by decide, by decide, by decide, by decide⟩
    · refine ⟨?_, ?_, ?_, ?_⟩ <;> intro hh <;> subst hh <;>
        revert h <;> decide
  refine ⟨fun c hc => ⟨hmem c hc, hforb c hc⟩, ?_, ?_, ?_, ?_⟩
  · exact noAdjWS_pyStrip _ (collapseAux_noAdjWS _ false)
  · exact pyStrip_head _
  · exact pyStrip_last _
  · intro up chunk hchunk
    have hsub : List.Sublist chunk (normalize_for_tts pre text) := by
      simpa using chunk_sublist_of_mem hchunk
    apply extract_emotion_no_bracket
    intro hhead
    cases chunk with
    | nil => simp at hhead
    | cons c rest =>
      simp only [List.head?_cons, Option.some.injEq] at hhead
      subst hhead
      have : '[' ∈ normalize_for_tts pre text :=
        hsub.subset (List.mem_cons_self _ _)
      exact (hforb _ this).1 rfl

/-- C9 witness: with the identity preprocessing and a concrete model
response carrying an emotion tag, normalization removes the tag and the
first emitted chunk extracts as NEUTRAL and is spoken verbatim. -/
theorem gemini_normalization_destroys_tags_witness :
    normalize_for_tts (fun t => t)
      ('[' :: ('F' :: 'E' :: 'L' :: 'I' :: 'Z' :: (']' :: (' ' ::
        ('H' :: 'o' :: 'l' :: 'a' :: ',' :: ' ' :: 's' :: 'i' :: [])))))
      = ('F' :: 'E' :: 'L' :: 'I' :: 'Z' :: ' '
          :: 'H' :: 'o' :: 'l' :: 'a' :: ',' :: ' ' :: 's' :: 'i' :: [])
    ∧ ('F' :: 'E' :: 'L' :: 'I' :: 'Z' :: ' '
        :: 'H' :: 'o' :: 'l' :: 'a' :: ',' :: []) ∈ chunkerEmissions
        [normalize_for_tts (fun t => t)
          ('[' :: ('F' :: 'E' :: 'L' :: 'I' :: 'Z' :: (']' :: (' ' ::
            ('H' :: 'o' :: 'l' :: 'a' :: ',' :: ' ' :: 's' :: 'i' :: [])))))]
    ∧ extract_emotion (List.map Char.toUpper)
        ('F' :: 'E' :: 'L' :: 'I' :: 'Z' :: ' '
          :: 'H' :: 'o' :: 'l' :: 'a' :: ',' :: [])
      = (neutralTag, ('F' :: 'E' :: 'L' :: 'I' :: 'Z' :: ' '
          :: 'H' :: 'o' :: 'l' :: 'a' :: ',' :: [])) := by
  refine ⟨by decide, by decide, ?_⟩
  exact (gemini_normalization_destroys_tags (fun t => t)
    ('[' :: ('F' :: 'E' :: 'L' :: 'I' :: 'Z' :: (']' :: (' ' ::
      ('H' :: 'o' :: 'l' :: 'a' :: ',' :: ' ' :: 's' :: 'i' :: []))))))
    |>.2.2.2.2 (List.map Char.toUpper) _ (by decide)

/-- C4 (amended): for every input that begins with a bracket tag (the
tag free of closing brackets and newlines) followed by a whitespace run
of ANY length and then a remainder that does not itself start with
whitespace and contains no newline, extract_emotion returns the pair of
the tag uppercased (by the table-driven string upper function the
source uses, abstracted as `up`) and the remainder with the leading tag
and the ENTIRE whitespace run removed — the greedy whitespace pattern
consumes the whole run, not a single character; for every input with no
leading bracket tag it returns the NEUTRAL sentinel and the input
unchanged; and both concrete examples of the specification hold.
(Without the newline restriction the claim fails: the trailing capture
group stops at a newline and truncates the remainder; and with more
than one whitespace character after the tag the single-character
removal of the original claim fails too.) -/
theorem extract_emotion_spec :
    (∀ (up : List Char → List Char) (tag w rest : List Char),
      ']' ∉ tag → '\n' ∉ tag →
      (∀ c ∈ w, pyIsSpace c = true) → '\n' ∉ rest →
      (∀ c ∈ rest.take 1, pyIsSpace c = false) →
      extract_emotion up ('[' :: (tag ++ ']' :: (w ++ rest)))
        = (up tag, rest))
    ∧ (∀ (up : List Char → List Char) (t : List Char),
        t.head? ≠ some '[' → extract_emotion up t = (neutralTag, t))
    ∧ extract_emotion (List.map Char.toUpper)
        ('[' :: 'F' :: 'E' :: 'L' :: 'I' :: 'Z' :: ']' :: ' '
          :: 'h' :: 'o' :: 'l' :: 'a' :: [])
      = (('F' :: 'E' :: 'L' :: 'I' :: 'Z' :: []), ('h' :: 'o' :: 'l' :: 'a' :: []))
    ∧ extract_emotion (List.map Char.toUpper) ('h' :: 'o' :: 'l' :: 'a' :: [])
      = (neutralTag, ('h' :: 'o' :: 'l' :: 'a' :: [])) := by
  refine ⟨?_, extract_emotion_no_bracket, by decide, by decide⟩
  intro up tag w rest h1 h2 h3 h5 h6
  simp only [extract_emotion, if_pos, scanTag_append tag _ h1 h2]
  rw [dropWhile_ws_append w rest h3 h6, takeWhile_no_newline rest h5]

/-- C4 witness: the general branch of the theorem applied to the ASCII
uppercase map, the tag FELIZ, a two-space separator (whose whole run is
consumed) and the remainder hola. -/
theorem extract_emotion_spec_witness :
    extract_emotion (List.map Char.toUpper)
      ('[' :: (('F' :: 'E' :: 'L' :: 'I' :: 'Z' :: []) ++ ']'
        :: ((' ' :: ' ' :: []) ++ ('h' :: 'o' :: 'l' :: 'a' :: []))))
      = (List.map Char.toUpper ('F' :: 'E' :: 'L' :: 'I' :: 'Z' :: []),
         ('h' :: 'o' :: 'l' :: 'a' :: [])) :=
  extract_emotion_spec.1 (List.map Char.toUpper)
    ('F' :: 'E' :: 'L' :: 'I' :: 'Z' :: []) (' ' :: ' ' :: [])
    ('h' :: 'o' :: 'l' :: 'a' :: []) (by decide) (by decide) (by decide)
    (by decide) (by decide)

/-- C4 counterexample, refuting the original claim on two inputs.  For
the bracketed tag A followed by TWO spaces and the letter b, the claim
(tag plus optionally one whitespace removed) predicts the pair of A and
space-b, but the greedy pattern consumes both spaces and the code
returns the pair of A and b.  For the bracketed tag A, one space, and
a remainder containing a newline, the claim predicts the pair of A and
the whole remainder, but extract_emotion truncates the cleaned text at
the newline: b newline c comes back as just b. -/
theorem extract_emotion_counterexample :
    extract_emotion (List.map Char.toUpper)
        ('[' :: 'A' :: ']' :: ' ' :: ' ' :: 'b' :: [])
      = (('A' :: []), ('b' :: []))
    ∧ ('b' :: []) ≠ (' ' :: 'b' :: [])
    ∧ extract_emotion (List.map Char.toUpper)
        ('[' :: 'A' :: ']' :: ' ' :: 'b' :: '\n' :: 'c' :: [])
      = (('A' :: []), ('b' :: []))
    ∧ ('b' :: []) ≠ ('b' :: '\n' :: 'c' :: []) := by
  refine ⟨by decide, by decide, by decide, by decide⟩

/-- The well-known error fragment yielded by both send_message_stream
implementations when the provider call raises. -/
def errorFragment : List Char :=
  ("[ERROR] Lo siento, tuve un problema procesando tu mensaje.").data

/-- The method `GeminiLLM.send_message_stream`: build the prompt, make one blocking
API call (`api` is its result, `none` when the call raises), normalize
the response and yield it as the single fragment of the stream, then —
still inside the generator, reached whenever the consumer drains the
stream — append the turn to the conversation history.  On error the
generator yields the error fragment instead and appends nothing.
Returns (yielded fragments, conversation history after the stream is
drained). -/
def gemini_send_message_stream (pre : List Char → List Char)
    (hist : List (List Char × List Char)) (user : List Char)
    (api : Option (List Char)) :
    List (List Char) × List (List Char × List Char) :=
  match api with
  | some raw =>
    ([normalize_for_tts pre raw], hist ++ [(user, normalize_for_tts pre raw)])
  | none => ([errorFragment], hist)

/-- The method `GroqLLM.send_message_stream`: real streaming.  Non-empty deltas are
accumulated raw into the full response and yielded normalized when the
normalization strips to something non-empty; when the transport raises
after `k` deltas, the except clause yields the error fragment and the
history append is skipped; on normal completion the raw accumulated
response is appended to history. -/
def groq_send_message_stream (pre : List Char → List Char)
    (hist : List (List Char × List Char)) (user : List Char)
    (deltas : List (List Char)) (errAfter : Option Nat) :
    List (List Char) × List (List Char × List Char) :=
  let processed := match errAfter with
    | some k => deltas.take k
    | none => deltas
  let truthy := processed.filter (fun d => !d.isEmpty)
  let frags := (truthy.map (groq_normalize_for_tts pre)).filter
    (fun t => !(pyStrip t).isEmpty)
  match errAfter with
  | some _ => (frags ++ [errorFragment], hist)
  | none => (frags, hist ++ [(user, truthy.flatten)])

/-- The TTS chunk callback of `process_user_message` in `main.py`,
applied to the emitted chunks in order: `stale i` tells whether the
interrupt flag is set when the callback for the i-th chunk runs; a stale
callback returns before doing anything, a fresh one extracts the emotion
and forwards the clean text to speech synthesis.  Returns the texts
passed to synthesizeAndPlay. -/
def staleFilter (up : List Char → List Char) (stale : Nat → Bool) :
    Nat → List (List Char) → List (List Char)
  | _, [] => []
  | i, c :: rest =>
    if stale i then staleFilter up stale (i + 1) rest
    else (extract_emotion up c).2 :: staleFilter up stale (i + 1) rest

/-- Everything observable about one turn of
`HybridVoiceAssistant.process_user_message` with the Gemini backend. -/
structure TurnOutcome where
  frags : List (List Char)
  emissions : List (List Char)
  synthesized : List (List Char)
  history : List (List Char × List Char)

/-- The method `HybridVoiceAssistant.process_user_message`: clear the interrupt
flag (the `stale` schedule describes when it is set again by barge-in),
run the chunking loop over the Gemini stream with the TTS callback, and
let the stream append to history on completion.  The callback cannot
stop the loop: a stale callback merely returns, so the stream is always
drained. -/
def process_user_message (pre up : List Char → List Char)
    (hist : List (List Char × List Char)) (user : List Char)
    (api : Option (List Char)) (stale : Nat → Bool) : TurnOutcome :=
  let s := gemini_send_message_stream pre hist user api
  let em := (get_response_with_chunking true s.1).1
  { frags := s.1
    emissions := em
    synthesized := staleFilter up stale 0 em
    history := s.2 }

theorem staleFilter_of_ge (up : List Char → List Char) (stale : Nat → Bool)
    (k : Nat) (hk : ∀ j, stale j = decide (k ≤ j)) (l : List (List Char)) :
    ∀ i, k ≤ i → staleFilter up stale i l = [] := by
  induction l with
  | nil => intro i _; rfl
  | cons c rest ih =>
    intro i hi
    have hs : stale i = true := by rw [hk i]; simpa using hi
    simp only [staleFilter, hs, if_pos]
    exact ih (i + 1) (Nat.le_succ_of_le hi)

theorem staleFilter_take (up : List Char → List Char) (stale : Nat → Bool)
    (k : Nat) (hk : ∀ j, stale j = decide (k ≤ j)) (l : List (List Char)) :
    ∀ i, staleFilter up stale i l
      = ((l.take (k - i)).map (fun c => (extract_emotion up c).2)) := by
  induction l with
  | nil => intro i; simp [staleFilter]
  | cons c rest ih =>
    intro i
    by_cases hik : k ≤ i
    · have h0 : k - i = 0 := Nat.sub_eq_zero_of_le hik
      rw [staleFilter_of_ge up stale k hk _ i hik, h0]
      rfl
    · have hlt : i < k := Nat.lt_of_not_le hik
      have hs : stale i = false := by
        rw [hk i]
        simpa using hik
      have hsub : k - i = (k - (i + 1)) + 1 := by omega
      simp only [staleFilter, hs, Bool.false_eq_true, if_false, ih (i + 1), hsub,
        List.take_succ_cons, List.map_cons]

theorem staleFilter_of_never (up : List Char → List Char) (stale : Nat → Bool)
    (hk : ∀ j, stale j = false) (l : List (List Char)) :
    ∀ i, staleFilter up stale i l
      = l.map (fun c => (extract_emotion up c).2) := by
  induction l with
  | nil => intro i; rfl
  | cons c rest ih =>
    intro i
    simp only [staleFilter, hk i, Bool.false_eq_true, if_false, ih (i + 1),
      List.map_cons]

/-- C1 (amended): once the interrupt flag is set during a turn (the
schedule is monotone: stale from chunk index k on), no chunk completed
at or after the staleness point triggers a synthesizeAndPlay call — the
synthesized texts are exactly those of the first k emitted chunks; but
the turn's text IS appended to the conversation history whenever the
fragment stream completes without error, interrupted or not, as one
assistant entry containing the full concatenated generated (normalized)
text.  Only an errored stream is not appended. -/
theorem interrupted_turn_spec (pre up : List Char → List Char)
    (hist : List (List Char × List Char)) (user raw : List Char)
    (stale : Nat → Bool) (k : Nat) (hk : ∀ j, stale j = decide (k ≤ j)) :
    (process_user_message pre up hist user (some raw) stale).history
      = hist ++ [(user, normalize_for_tts pre raw)]
    ∧ (process_user_message pre up hist user (some raw) stale).synthesized
      = ((process_user_message pre up hist user
            (some raw) stale).emissions.take k).map
          (fun c => (extract_emotion up c).2)
    ∧ (process_user_message pre up hist user (some raw) stale).frags.flatten
      = normalize_for_tts pre raw := by
  refine ⟨rfl, ?_, by simp [process_user_message, gemini_send_message_stream]⟩
  have h := staleFilter_take up stale k hk
    (process_user_message pre up hist user (some raw) stale).emissions 0
  simpa using h

/-- C1 witness: instantiates the theorem with the identity
preprocessing, empty history, the user text hola, the response Si and a
schedule that is stale from chunk index one on. -/
theorem interrupted_turn_spec_witness :
    (process_user_message (fun t => t) (List.map Char.toUpper) []
        ('h' :: 'o' :: 'l' :: 'a' :: [])
        (some ('S' :: 'i' :: [])) (fun j => decide (1 ≤ j))).history
      = [] ++ [(('h' :: 'o' :: 'l' :: 'a' :: []),
          normalize_for_tts (fun t => t) ('S' :: 'i' :: []))]
    ∧ (process_user_message (fun t => t) (List.map Char.toUpper) []
        ('h' :: 'o' :: 'l' :: 'a' :: [])
        (some ('S' :: 'i' :: [])) (fun j => decide (1 ≤ j))).synthesized
      = ((process_user_message (fun t => t) (List.map Char.toUpper) []
          ('h' :: 'o' :: 'l' :: 'a' :: [])
          (some ('S' :: 'i' :: [])) (fun j => decide (1 ≤ j))).emissions.take 1).map
          (fun c => (extract_emotion (List.map Char.toUpper) c).2)
    ∧ (process_user_message (fun t => t) (List.map Char.toUpper) []
        ('h' :: 'o' :: 'l' :: 'a' :: [])
        (some ('S' :: 'i' :: [])) (fun j => decide (1 ≤ j))).frags.flatten
      = normalize_for_tts (fun t => t) ('S' :: 'i' :: []) :=
  interrupted_turn_spec (fun t => t) (List.map Char.toUpper) []
    ('h' :: 'o' :: 'l' :: 'a' :: [])
    ('S' :: 'i' :: []) (fun j => decide (1 ≤ j)) 1 (fun _ => rfl)

/-- C1 counterexample: a turn whose interrupt flag is already set before
the first chunk callback synthesizes nothing at all — the turn is fully
interrupted — and its text is nevertheless appended to the conversation
history, contradicting the claim that a stale turn's text is never
appended. -/
theorem interrupted_turn_history_counterexample :
    (process_user_message (fun t => t) (List.map Char.toUpper) []
        ('h' :: 'o' :: 'l' :: 'a' :: [])
        (some ('S' :: 'i' :: [])) (fun _ => true)).synthesized = []
    ∧ (process_user_message (fun t => t) (List.map Char.toUpper) []
        ('h' :: 'o' :: 'l' :: 'a' :: [])
        (some ('S' :: 'i' :: [])) (fun _ => true)).history
      = [(('h' :: 'o' :: 'l' :: 'a' :: []), ('S' :: 'i' :: []))]
    ∧ ([(('h' :: 'o' :: 'l' :: 'a' :: []), ('S' :: 'i' :: []))]
        : List (List Char × List Char)) ≠ [] := by
  refine ⟨by decide, by decide, by decide⟩

theorem groq_normalize_mem (pre : List Char → List Char) (text : List Char) :
    ∀ c ∈ groq_normalize_for_tts pre text,
    c = ' ' ∨ (groqAllowed c = true ∧ pyIsSpace c = false) := by
  intro c hc
  have h1 : c ∈ collapseAux false ((pre text).filter groqAllowed) :=
    (pyStrip_wsDeletion _).1.subset hc
  rcases collapseAux_mem _ false c h1 with h2 | h2
  · exact Or.inl h2
  · exact Or.inr ⟨(List.mem_filter.mp h2.1).2, h2.2⟩

/-- C5: on a terminal provider error the Gemini stream yields exactly
the one well-known error fragment and ends, nothing is appended to the
conversation history for that turn (the turn function is total, so the
error is absorbed and the session continues), and the orchestrator
chunks the error fragment and surfaces it as a spoken apology — with no
interruption the synthesized texts are the apology texts.  Likewise the
Groq stream, erroring after any number of deltas, appends nothing to
history and yields exactly one error fragment, as its last element. -/
theorem stream_error_handling :
    (∀ (pre up : List Char → List Char) (hist : List (List Char × List Char))
        (user : List Char) (stale : Nat → Bool),
      (process_user_message pre up hist user none stale).frags = [errorFragment]
      ∧ (process_user_message pre up hist user none stale).history = hist
      ∧ (process_user_message pre up hist user none stale).emissions
        = [("[ERROR] Lo siento,").data,
           ("tuve un problema procesando tu mensaje.").data]
      ∧ ((∀ j, stale j = false) →
          (process_user_message pre up hist user none stale).synthesized
          = [("Lo siento,").data,
             ("tuve un problema procesando tu mensaje.").data]))
    ∧ ∀ (pre : List Char → List Char) (hist : List (List Char × List Char))
        (user : List Char) (deltas : List (List Char)) (k : Nat),
      (groq_send_message_stream pre hist user deltas (some k)).2 = hist
      ∧ ∃ pfx, (groq_send_message_stream pre hist user deltas (some k)).1
          = pfx ++ [errorFragment] ∧ errorFragment ∉ pfx := by
  constructor
  · intro pre up hist user stale
    have hem : (process_user_message pre up hist user none stale).emissions
        = [("[ERROR] Lo siento,").data,
           ("tuve un problema procesando tu mensaje.").data] := by
      show (get_response_with_chunking true [errorFragment]).1
        = [("[ERROR] Lo siento,").data,
           ("tuve un problema procesando tu mensaje.").data]
      decide
    refine ⟨rfl, rfl, hem, ?_⟩
    intro hnever
    have h := staleFilter_of_never up stale hnever
      (process_user_message pre up hist user none stale).emissions 0
    have h2 : (process_user_message pre up hist user none stale).synthesized
        = (process_user_message pre up hist user none stale).emissions.map
          (fun c => (extract_emotion up c).2) := h
    rw [h2, hem]
    rfl
  · intro pre hist user deltas k
    refine ⟨rfl, ?_⟩
    refine ⟨(((deltas.take k).filter (fun (d : List Char) => !d.isEmpty)).map
      (groq_normalize_for_tts pre)).filter
      (fun (t : List Char) => !(pyStrip t).isEmpty),
      rfl, ?_⟩
    intro hmem
    have h1 := (List.mem_filter.mp hmem).1
    rcases List.mem_map.mp h1 with ⟨d, _, hd⟩
    have hbr : '[' ∈ errorFragment := by decide
    rw [← hd] at hbr
    rcases groq_normalize_mem pre d '[' hbr with h | h
    · exact absurd h (by decide)
    · exact absurd h.1 (by decide)

/-- C5 witness: the Gemini half at a schedule that is never stale (so
the apology is actually spoken) and the Groq half with two deltas and an
error after the first. -/
theorem stream_error_handling_witness :
    (process_user_message (fun t => t) (List.map Char.toUpper)
        [] ('h' :: 'i' :: []) none (fun _ => false)).synthesized
      = [("Lo siento,").data, ("tuve un problema procesando tu mensaje.").data]
    ∧ (groq_send_message_stream (fun t => t) [] ('h' :: 'i' :: [])
        [('H' :: 'o' :: 'l' :: 'a' :: []), ('s' :: 'i' :: [])] (some 1)).2 = [] := by
  constructor
  · exact (stream_error_handling.1 (fun t => t) (List.map Char.toUpper)
      [] ('h' :: 'i' :: []) (fun _ => false)).2.2.2 (fun _ => rfl)
  · exact (stream_error_handling.2 (fun t => t) [] ('h' :: 'i' :: [])
      [('H' :: 'o' :: 'l' :: 'a' :: []), ('s' :: 'i' :: [])] 1).1

/-- The system message appended by `add_time_pressure`. -/
def timePressureMessage (r : Int) : List Char :=
  ("[SISTEMA] Quedan ").data ++ (toString r).data
    ++ (" segundos. Despídete naturalmente.").data

/-- The scripted farewell spoken by `timer_loop` when the budget runs
out, sent straight to speech synthesis without a generation call. -/
def farewellText : List Char :=
  ("[NEUTRAL] Ha sido un placer hablar contigo. ¡Hasta luego!").data

/-- The method `GeminiLLM.add_time_pressure`: append the time-pressure system entry
to the conversation history whenever at most thirty seconds remain (the
user slot of the entry is empty). -/
def add_time_pressure (r : Int) (hist : List (List Char × List Char)) :
    List (List Char × List Char) :=
  if r ≤ 30 then hist ++ [(([] : List Char), timePressureMessage r)] else hist

/-- Session-level state touched by `timer_loop`: the conversation
history owned by the LLM wrapper, the texts handed to speech synthesis,
the orchestrator's running flag, and the STT listening flag that gates
`listen_continuous`. -/
structure SessionState where
  history : List (List Char × List Char)
  spoken : List (List Char)
  isRunning : Bool
  sttListening : Bool
deriving DecidableEq

/-- One iteration of the body of `HybridVoiceAssistant.timer_loop` at
the given remaining time: when the remainder is in the window of at most
thirty and more than twenty-five seconds, call add_time_pressure; when
the remainder is not positive, speak the scripted farewell directly and
clear the running flag.  Nothing in the body touches the STT listening
flag. -/
def timerTick (st : SessionState) (remaining : Int) : SessionState :=
  let st1 := if remaining ≤ 30 ∧ 25 < remaining
    then { st with history := add_time_pressure remaining st.history }
    else st
  if remaining ≤ 0 then
    { st1 with spoken := st1.spoken ++ [farewellText], isRunning := false }
  else st1

/-- The loop `timer_loop` over the whole session under the one-second tick the
claims stipulate: the remaining time starts at the duration budget and
decreases by one per iteration; the loop guard is the running flag and
the loop ends at the tick where the remainder reaches zero. -/
def timerLoop (st : SessionState) : Nat → SessionState
  | 0 => if st.isRunning then timerTick st 0 else st
  | n + 1 => if st.isRunning then timerLoop (timerTick st ((n : Int) + 1)) n else st

/-- The session state at startup: empty history, nothing spoken, both
the orchestrator and the STT capture loop running. -/
def initialSession : SessionState :=
  { history := [], spoken := [], isRunning := true, sttListening := true }

/-- A full timer run for a session with the given duration budget. -/
def timerRun (dur : Nat) : SessionState := timerLoop initialSession dur

theorem timerTick_noop (st : SessionState) (r : Int) (h : 30 < r) :
    timerTick st r = st := by
  have h1 : ¬(r ≤ 30 ∧ 25 < r) := by omega
  have h2 : ¬(r ≤ 0) := by omega
  simp [timerTick, h1, h2]

theorem timerLoop_ge30 (st : SessionState) (hrun : st.isRunning = true) :
    ∀ n : Nat, 30 ≤ n → timerLoop st n = timerLoop st 30 := by
  intro n
  induction n with
  | zero => omega
  | succ m ih =>
    intro h
    rcases Nat.lt_or_ge m 30 with hm | hm
    · have h30 : m + 1 = 30 := by omega
      rw [h30]
    · have hgt : (30 : Int) < (m : Int) + 1 := by omega
      have hst : timerTick st ((m : Int) + 1) = st := timerTick_noop st _ hgt
      calc timerLoop st (m + 1) = timerLoop st m := by
            simp [timerLoop, hrun, hst]
        _ = timerLoop st 30 := ih hm

/-- C3 (amended): with a duration budget of 300 seconds and a one-second
tick, the time-pressure system entry is appended on every tick whose
remainder lies in the window of more than 25 and at most 30 seconds —
five times in total, first when the remainder reaches 30 and again on
each of the four following ticks — not exactly once. -/
theorem time_pressure_five_appends :
    (timerRun 300).history
      = [(([] : List Char), timePressureMessage 30),
         (([] : List Char), timePressureMessage 29),
         (([] : List Char), timePressureMessage 28),
         (([] : List Char), timePressureMessage 27),
         (([] : List Char), timePressureMessage 26)]
    ∧ (timerRun 300).history.length = 5 := by
  have h : timerRun 300 = timerLoop initialSession 30 := by
    rw [timerRun]
    exact timerLoop_ge30 initialSession rfl 300 (by omega)
  rw [h]
  refine ⟨by decide, by decide⟩

/-- C3 counterexample: over the whole 300-second session the
time-pressure entry ends up in the history five times, so it is not
injected exactly once and it is duplicated on ticks after the first
entry into the warning window. -/
theorem time_pressure_not_once :
    (timerRun 300).history.length = 5
    ∧ ¬(timerRun 300).history.length = 1 := by
  have h : timerRun 300 = timerLoop initialSession 30 := by
    rw [timerRun]
    exact timerLoop_ge30 initialSession rfl 300 (by omega)
  rw [h]
  refine ⟨by decide, by decide⟩

/-- C6: what the timer actually does when the budget expires, evaluated
for a ten-second session: the tick with no time remaining speaks the
scripted farewell directly (bypassing generation — the timer never
consults the generation client) and clears the running flag, but it
leaves the STT listening flag set: the capture source is NOT stopped,
so the listen loop keeps running and the shutdown that would release
the capture and playback resources is never reached on this path. -/
theorem timer_expiry_behavior :
    (timerRun 10).spoken = [farewellText]
    ∧ (timerRun 10).isRunning = false
    ∧ (timerRun 10).sttListening = true
    ∧ (timerRun 10).history = [] := by
  refine ⟨by decide, by decide, by decide, by decide⟩

/-- The per-result handling of `VoskSTT.listen_continuous`: the
recognized text is stripped; only a non-blank result is put on the text
queue and forwarded to the utterance callback.  Returns the queue and
the list of callback invocations after the result. -/
def listen_handle_result (queued calls : List (List Char)) (raw : List Char) :
    List (List Char) × List (List Char) :=
  let text := pyStrip raw
  if text.isEmpty then (queued, calls) else (queued ++ [text], calls ++ [text])

/-- C7: a recognition result that is empty or all whitespace triggers no
transition at all — nothing is enqueued and the utterance callback is
not invoked, so no generation turn starts and the history is
unchanged. -/
theorem blank_recognition_no_transition (queued calls : List (List Char))
    (raw : List Char) (h : pyStrip raw = []) :
    listen_handle_result queued calls raw = (queued, calls) := by
  simp [listen_handle_result, h]

/-- C7 witness: a result of one space, one tab and one newline strips to
nothing, and the handler leaves the queue and the callback log alone. -/
theorem blank_recognition_no_transition_witness :
    listen_handle_result [('h' :: 'i' :: [])] []
      (' ' :: '\t' :: '\n' :: []) = ([('h' :: 'i' :: [])], []) :=
  blank_recognition_no_transition [('h' :: 'i' :: [])] []
    (' ' :: '\t' :: '\n' :: []) (by decide)

/-- State of `PiperTTS` as far as `stop_speaking` is concerned: the
speaking flag and the current synthesis subprocess, if one was ever
launched (the boolean records whether it is still alive; terminating a
process that already exited is a harmless no-op). -/
structure TTSState where
  isSpeaking : Bool
  currentProcess : Option Bool
deriving DecidableEq

/-- Terminating the current process, swallowing any error as the bare
except clause of the source does: no process stays no process, a live or
dead process becomes a dead one. -/
def terminateProcess : Option Bool → Option Bool
  | none => none
  | some _ => some false

/-- The method `PiperTTS.stop_speaking`: clear the speaking flag (which makes the
playback loop of the play-audio helper exit at its next iteration) and
terminate the current synthesis process if there is one. -/
def stop_speaking (st : TTSState) : TTSState :=
  { isSpeaking := false, currentProcess := terminateProcess st.currentProcess }

/-- C8: stop_speaking is idempotent on every sink state — a second call
leaves exactly the state of the first; after any call the speaking flag
reads false; and when nothing is being synthesized or played (no
process, or only an already-terminated one) the call is a harmless
no-op apart from forcing the speaking flag to false.  The function is
total, so the call never raises. -/
theorem stop_speaking_idempotent (st : TTSState) :
    stop_speaking (stop_speaking st) = stop_speaking st
    ∧ (stop_speaking st).isSpeaking = false
    ∧ ((st.currentProcess = none ∨ st.currentProcess = some false) →
        stop_speaking st = { st with isSpeaking := false }) := by
  rcases st with ⟨s, p⟩
  refine ⟨?_, rfl, ?_⟩
  · cases p <;> rfl
  · intro h
    rcases h with h | h
    · have h2 : p = none := h
      subst h2
      rfl
    · have h2 : p = some false := h
      subst h2
      rfl

/-- C8 witness: the idling sink with no process ever launched — the
cancel call only forces the speaking flag false. -/
theorem stop_speaking_idempotent_witness :
    stop_speaking { isSpeaking := true, currentProcess := none }
      = { ({ isSpeaking := true, currentProcess := none } : TTSState)
          with isSpeaking := false } :=
  (stop_speaking_idempotent
    { isSpeaking := true, currentProcess := none }).2.2 (Or.inl rfl)

end Assistant
